import Mathlib

/-!
Verification of the stats-template-canvas editing core.

Shallow embedding of the history manager, derived-content synchronizers,
parser color discovery, formatting dispatch, export-to-clipboard flow and
export base-filename derivation of `src/components/EditorClient.tsx` and
`src/lib/export.ts`, with theorems settling the claims of the specification.
-/

namespace StatsTemplateCanvas

/-!
Snapshots: `type Snapshot = { bodyHTML: string; colors: Record<string,string> }`.

A JS `Record<string,string>` is embedded as an association list in insertion
order; JS object semantics guarantee the keys are distinct, which appears as a
`Nodup` hypothesis where it matters.  `colLookup` embeds `colors[key]`. -/

structure Snapshot where
  bodyHTML : String
  colors : List (String × String)
deriving DecidableEq, Repr

def colLookup : List (String × String) → String → Option String
  | [], _ => none
  | (k, v) :: rest, key => if k = key then some v else colLookup rest key

/-- Embedding of `areSnapshotsEqual(a, b)` from EditorClient.tsx lines 149–156:
`if (!a) return false;` then bodyHTML string equality, key-count equality and
`bKeys.every((key) => a.colors[key] === b.colors[key])`. -/
def areSnapshotsEqual (a : Option Snapshot) (b : Snapshot) : Bool :=
  match a with
  | none => false
  | some a =>
      a.bodyHTML == b.bodyHTML &&
      a.colors.length == b.colors.length &&
      b.colors.all (fun kv => colLookup a.colors kv.1 == some kv.2)

/-!
History manager.

`historyRef : Snapshot[]` starts `[]`, `historyIndexRef` starts `-1`
(EditorClient.tsx lines 1060–1061), so the cursor is an `Int`.
`pushSnapshot` (lines 1087–1098): `slice(0, index+1)`, dedup against the top,
append, single `shift()` past capacity, cursor to the new tail.  `undo`
(lines 1130–1135) and `redo` (lines 1137–1142) guard on the boundary and
otherwise move the cursor and restore the snapshot at the new cursor. -/

def MAX_HISTORY : Nat := 60

structure HistState where
  history : List Snapshot
  index : Int
deriving DecidableEq, Repr

def initState : HistState := ⟨[], -1⟩

def pushSnapshot (st : HistState) (s : Snapshot) : HistState :=
  let base := st.history.take (st.index + 1).toNat
  if areSnapshotsEqual base.getLast? s then st
  else
    let base2 := base ++ [s]
    let base3 := if MAX_HISTORY < base2.length then base2.drop 1 else base2
    ⟨base3, (base3.length : Int) - 1⟩

def undo (st : HistState) : HistState :=
  if st.index ≤ 0 then st else { st with index := st.index - 1 }

def redo (st : HistState) : HistState :=
  if (st.history.length : Int) - 1 ≤ st.index then st
  else { st with index := st.index + 1 }

/-- The snapshot `restoreSnapshot` receives during `redo`
(`historyRef.current[historyIndexRef.current]` after the increment). -/
def redoRestored (st : HistState) : Option Snapshot :=
  if (st.history.length : Int) - 1 ≤ st.index then none
  else st.history[(st.index + 1).toNat]?

/-- States reachable from the initial empty history by the three
history-manager operations. -/
inductive Reachable : HistState → Prop
  | init : Reachable initState
  | push_step : ∀ {st} (s : Snapshot), Reachable st → Reachable (pushSnapshot st s)
  | undo_step : ∀ {st}, Reachable st → Reachable (undo st)
  | redo_step : ∀ {st}, Reachable st → Reachable (redo st)

/-- Well-formedness: empty history with cursor `-1`, or cursor a valid index. -/
def WF (st : HistState) : Prop :=
  (st.history = [] ∧ st.index = -1) ∨ (0 ≤ st.index ∧ st.index < st.history.length)

theorem wf_pushSnapshot (st : HistState) (s : Snapshot) (h : WF st) :
    WF (pushSnapshot st s) := by
  simp only [pushSnapshot]
  split
  · exact h
  · unfold WF
    dsimp only
    split <;> rename_i hc
    · refine Or.inr ⟨?_, ?_⟩ <;>
        simp only [MAX_HISTORY, List.length_drop, List.length_append,
          List.length_cons, List.length_nil] at hc ⊢ <;>
        omega
    · refine Or.inr ⟨?_, ?_⟩ <;>
        simp only [MAX_HISTORY, List.length_append, List.length_cons,
          List.length_nil] at hc ⊢ <;>
        omega

theorem wf_undo (st : HistState) (h : WF st) : WF (undo st) := by
  simp only [undo]
  split
  · exact h
  · rcases h with ⟨h1, h2⟩ | ⟨h1, h2⟩
    · omega
    · right
      simp only
      omega

theorem wf_redo (st : HistState) (h : WF st) : WF (redo st) := by
  simp only [redo]
  split
  · exact h
  · rcases h with ⟨h1, h2⟩ | ⟨h1, h2⟩
    · right
      simp only
      constructor <;> omega
    · right
      simp only
      constructor <;> omega

theorem wf_of_reachable {st : HistState} (h : Reachable st) : WF st := by
  induction h with
  | init => exact Or.inl ⟨rfl, rfl⟩
  | push_step s _ ih => exact wf_pushSnapshot _ s ih
  | undo_step _ ih => exact wf_undo _ ih
  | redo_step _ ih => exact wf_redo _ ih

theorem length_pushSnapshot_le (st : HistState) (s : Snapshot)
    (h : st.history.length ≤ MAX_HISTORY) :
    (pushSnapshot st s).history.length ≤ MAX_HISTORY := by
  simp only [pushSnapshot]
  split
  · exact h
  · have ht := List.length_take (st.index + 1).toNat st.history
    have hM : MAX_HISTORY = 60 := rfl
    split <;>
      rename_i hc <;>
      simp only [MAX_HISTORY, List.length_drop, List.length_append,
        List.length_cons, List.length_nil, not_lt] at hc ⊢ <;>
      omega

/-- History length is bounded by `MAX_HISTORY` along every reachable state. -/
theorem length_le_of_reachable {st : HistState} (h : Reachable st) :
    st.history.length ≤ MAX_HISTORY := by
  induction h with
  | init => simp [initState, MAX_HISTORY]
  | push_step s _ ih => exact length_pushSnapshot_le _ s ih
  | undo_step _ ih =>
      simp only [undo]
      split
      · exact ih
      · simpa using ih
  | redo_step _ ih =>
      simp only [redo]
      split
      · exact ih
      · simpa using ih

/-! Concrete snapshots and states used by the witnesses. -/

def snapA : Snapshot := ⟨"a", []⟩
def snapB : Snapshot := ⟨"b", []⟩
def snapC : Snapshot := ⟨"c", []⟩
def stAB : HistState := pushSnapshot (pushSnapshot initState snapA) snapB
def snapXY : Snapshot := ⟨"body", [("--x", "#111111"), ("--y", "#222222")]⟩
def snapYX : Snapshot := ⟨"body", [("--y", "#222222"), ("--x", "#111111")]⟩

/-- C1: for every reachable history state, `undo` at cursor 0 and `redo` at the
last cursor are no-ops (history and cursor unchanged); and whenever `undo` is
applicable (cursor strictly positive), `undo` followed by `redo` returns the
state unchanged and the snapshot `redo` restores is exactly the pre-undo cursor
snapshot. -/
theorem undo_redo_round_trip (st : HistState) (h : Reachable st) :
    (st.index = 0 → undo st = st) ∧
    (st.history ≠ [] → st.index = (st.history.length : Int) - 1 → redo st = st) ∧
    (0 < st.index →
      redo (undo st) = st ∧
      redoRestored (undo st) = st.history[st.index.toNat]? ∧
      (redoRestored (undo st)).isSome = true) := by
  have hwf := wf_of_reachable h
  refine ⟨fun h0 => ?_, fun _ hidx => ?_, fun hpos => ?_⟩
  · simp [undo, h0]
  · rw [redo, if_pos (by omega)]
  · rcases hwf with ⟨_, hi⟩ | ⟨h0, hlt⟩
    · omega
    · have hu : undo st = { st with index := st.index - 1 } := by
        rw [undo, if_neg (by omega)]
      have hio : st.index - 1 + 1 = st.index := by omega
      have hcond : ¬((({ st with index := st.index - 1 } : HistState).history.length : Int) - 1
          ≤ ({ st with index := st.index - 1 } : HistState).index) := by
        dsimp only
        omega
      refine ⟨?_, ?_, ?_⟩
      · rw [hu, redo, if_neg hcond]
        dsimp only
        rw [hio]
      · rw [hu, redoRestored, if_neg hcond]
        dsimp only
        rw [hio]
      · rw [hu, redoRestored, if_neg hcond]
        dsimp only
        rw [hio]
        have hn : st.index.toNat < st.history.length := by omega
        simp [List.getElem?_eq_getElem hn]

/-- C1 witness: a two-entry history reached by two pushes; undo followed by
redo restores the state and the second snapshot. -/
theorem undo_redo_round_trip_witness :
    redo (undo stAB) = stAB ∧ redoRestored (undo stAB) = some snapB := by
  obtain ⟨-, -, h3⟩ :=
    undo_redo_round_trip stAB (.push_step snapB (.push_step snapA .init))
  obtain ⟨ha, hb, -⟩ := h3 (by decide)
  exact ⟨ha, hb.trans (by decide)⟩

/-- C2: from the empty history, any sequence of push, undo, redo keeps at most
`MAX_HISTORY = 60` snapshots; and a push onto a full history with the cursor at
the tail (which would make it 61) drops the oldest snapshot from the front,
after which the cursor points at the just-pushed snapshot, the new tail. -/
theorem history_capacity_eviction (st : HistState) (s : Snapshot)
    (h : Reachable st) :
    st.history.length ≤ MAX_HISTORY ∧
    (st.history.length = 60 → st.index = 59 →
      areSnapshotsEqual st.history.getLast? s = false →
      (pushSnapshot st s).history = st.history.drop 1 ++ [s] ∧
      (pushSnapshot st s).history.length = 60 ∧
      (pushSnapshot st s).index = 59 ∧
      (pushSnapshot st s).history[(59 : Nat)]? = some s) := by
  refine ⟨length_le_of_reachable h, fun hlen hidx hne => ?_⟩
  have htn : (st.index + 1).toNat = 60 := by omega
  have hbase : st.history.take (st.index + 1).toNat = st.history := by
    rw [htn]
    exact List.take_of_length_le (by omega)
  have hsplit : (st.history ++ [s]).drop 1 = st.history.drop 1 ++ [s] :=
    List.drop_append_of_le_length (by omega)
  have hpush : pushSnapshot st s = ⟨st.history.drop 1 ++ [s], 59⟩ := by
    simp only [pushSnapshot, hbase]
    rw [if_neg (by simp [hne]), if_pos (by simp [hlen, MAX_HISTORY])]
    rw [HistState.mk.injEq, hsplit]
    refine ⟨rfl, ?_⟩
    simp [List.length_append, List.length_drop, hlen]
  rw [hpush]
  refine ⟨rfl, ?_, rfl, ?_⟩
  · simp [List.length_append, List.length_drop, hlen]
  · rw [List.getElem?_append_right (by simp [hlen])]
    simp [hlen]

/-- C2 witness: instantiated at a concrete two-push reachable state. -/
theorem history_capacity_eviction_witness : stAB.history.length ≤ MAX_HISTORY :=
  (history_capacity_eviction stAB snapC
    (.push_step snapB (.push_step snapA .init))).1

theorem colLookup_isSome_iff_mem (l : List (String × String)) (k : String) :
    (colLookup l k).isSome = true ↔ k ∈ l.map Prod.fst := by
  induction l with
  | nil => simp [colLookup]
  | cons kv rest ih =>
      obtain ⟨k0, v⟩ := kv
      simp only [colLookup, List.map_cons, List.mem_cons]
      split <;> rename_i hk
      · simp [hk]
      · simp only [ih]
        constructor
        · exact Or.inr
        · rintro (rfl | hm)
          · exact absurd rfl hk
          · exact hm

theorem colLookup_of_nodup_mem {l : List (String × String)} {k v : String}
    (hn : (l.map Prod.fst).Nodup) (hm : (k, v) ∈ l) :
    colLookup l k = some v := by
  induction l with
  | nil => simp at hm
  | cons kv rest ih =>
      obtain ⟨k0, v0⟩ := kv
      simp only [List.map_cons, List.nodup_cons] at hn
      rcases List.mem_cons.mp hm with heq | hmem
      · injection heq with h1 h2
        subst h1
        subst h2
        simp [colLookup]
      · have hkk : k ≠ k0 := by
          rintro rfl
          exact hn.1 (List.mem_map.mpr ⟨(k, v), hmem, rfl⟩)
        rw [colLookup, if_neg (Ne.symm hkk)]
        exact ih hn.2 hmem

/-- With distinct keys on both sides (guaranteed by JS object semantics), equal
bodies plus pointwise-equal color lookups make `areSnapshotsEqual` succeed. -/
theorem areSnapshotsEqual_of_specEq {a b : Snapshot}
    (ha : (a.colors.map Prod.fst).Nodup) (hb : (b.colors.map Prod.fst).Nodup)
    (hbody : a.bodyHTML = b.bodyHTML)
    (hcols : ∀ k, colLookup a.colors k = colLookup b.colors k) :
    areSnapshotsEqual (some a) b = true := by
  simp only [areSnapshotsEqual, Bool.and_eq_true, beq_iff_eq, List.all_eq_true]
  refine ⟨⟨hbody, ?_⟩, ?_⟩
  · have hsets : (a.colors.map Prod.fst).toFinset = (b.colors.map Prod.fst).toFinset := by
      ext k
      simp only [List.mem_toFinset, ← colLookup_isSome_iff_mem, hcols]
    have hlena := List.toFinset_card_of_nodup ha
    have hlenb := List.toFinset_card_of_nodup hb
    rw [hsets] at hlena
    simpa using hlena.symm.trans hlenb
  · intro kv hkv
    have := colLookup_of_nodup_mem hb hkv
    simp [hcols kv.1, this]

/-- C3: pushing a snapshot that is identical to the current top of history —
equal `bodyHTML` strings and colors maps with identical key sets and identical
values for every key — leaves history and cursor unchanged (no entry added). -/
theorem push_identical_noop (st : HistState) (s top : Snapshot)
    (h : Reachable st)
    (htop : st.history[st.index.toNat]? = some top)
    (hn1 : (top.colors.map Prod.fst).Nodup)
    (hn2 : (s.colors.map Prod.fst).Nodup)
    (hbody : top.bodyHTML = s.bodyHTML)
    (hcols : ∀ k, colLookup top.colors k = colLookup s.colors k) :
    pushSnapshot st s = st := by
  have hwf := wf_of_reachable h
  have hidx : st.index.toNat < st.history.length := by
    by_contra hcon
    rw [List.getElem?_eq_none (by omega)] at htop
    exact Option.noConfusion htop
  have h0 : 0 ≤ st.index := by
    rcases hwf with ⟨hh, _⟩ | ⟨h0, _⟩
    · rw [hh] at hidx
      simp at hidx
    · exact h0
  have htn : (st.index + 1).toNat = st.index.toNat + 1 := by omega
  have hlast : (st.history.take (st.index + 1).toNat).getLast? = some top := by
    rw [htn, List.getLast?_eq_getElem?, List.length_take]
    have hmin : min (st.index.toNat + 1) st.history.length = st.index.toNat + 1 := by
      omega
    rw [hmin, Nat.add_sub_cancel, List.getElem?_take, if_pos (by omega)]
    exact htop
  simp only [pushSnapshot, hlast,
    areSnapshotsEqual_of_specEq hn1 hn2 hbody hcols, if_true]

/-- C3 witness: pushing a snapshot whose colors map lists the same bindings in
a different order onto a one-entry history is a no-op. -/
theorem push_identical_noop_witness :
    pushSnapshot (pushSnapshot initState snapXY) snapYX
      = pushSnapshot initState snapXY := by
  refine push_identical_noop _ snapYX snapXY (.push_step snapXY .init)
    (by decide) (by decide) (by decide) rfl ?_
  intro k
  by_cases h1 : "--x" = k
  · subst h1
    decide
  · by_cases h2 : "--y" = k
    · subst h2
      decide
    · simp [snapXY, snapYX, colLookup, h1, h2]

/-- C4: with the cursor strictly before the tail, pushing a snapshot that is
not equal to the cursor entry discards every snapshot after the cursor and
appends the new one: the new snapshot is the tail, it sits immediately after
the former cursor entry (which is unchanged), and the cursor moves onto it. -/
theorem push_truncates_forward_history (st : HistState) (s : Snapshot)
    (h : Reachable st)
    (hint : st.index + 1 < (st.history.length : Int))
    (hne : areSnapshotsEqual
      (st.history.take (st.index + 1).toNat).getLast? s = false) :
    (pushSnapshot st s).history
        = st.history.take (st.index + 1).toNat ++ [s] ∧
    (pushSnapshot st s).index = st.index + 1 ∧
    (pushSnapshot st s).history.length = (st.index + 1).toNat + 1 ∧
    (pushSnapshot st s).history[(st.index + 1).toNat]? = some s ∧
    (pushSnapshot st s).history[st.index.toNat]? = st.history[st.index.toNat]? := by
  have hwf := wf_of_reachable h
  have h0 : 0 ≤ st.index := by
    rcases hwf with ⟨hh, hi⟩ | ⟨h0, _⟩
    · rw [hh] at hint
      simp at hint
      omega
    · exact h0
  have hcap := length_le_of_reachable h
  have hM : MAX_HISTORY = 60 := rfl
  have htn : ((st.index + 1).toNat : Int) = st.index + 1 := by omega
  have hbl : (st.history.take (st.index + 1).toNat).length
      = (st.index + 1).toNat := by
    rw [List.length_take]
    omega
  have hpush : pushSnapshot st s
      = ⟨st.history.take (st.index + 1).toNat ++ [s], st.index + 1⟩ := by
    simp only [pushSnapshot]
    rw [if_neg (by simp [hne]), if_neg (by
      simp only [List.length_append, List.length_cons, List.length_nil, hbl]
      omega)]
    rw [HistState.mk.injEq]
    refine ⟨rfl, ?_⟩
    simp only [List.length_append, List.length_cons, List.length_nil, hbl]
    omega
  rw [hpush]
  refine ⟨rfl, rfl, ?_, ?_, ?_⟩
  · simp [hbl]
  · rw [List.getElem?_append_right (by omega), hbl]
    simp
  · rw [List.getElem?_append, if_pos (by omega), List.getElem?_take,
      if_pos (by omega)]

/-- C4 witness: from a two-entry history with the cursor moved back to 0 by an
undo, pushing a third snapshot truncates the forward entry and appends. -/
theorem push_truncates_forward_history_witness :
    (pushSnapshot (undo stAB) snapC).history = [snapA, snapC] ∧
    (pushSnapshot (undo stAB) snapC).index = 1 := by
  obtain ⟨h1, h2, -, -, -⟩ :=
    push_truncates_forward_history (undo stAB) snapC
      (.undo_step (.push_step snapB (.push_step snapA .init)))
      (by decide) (by decide)
  exact ⟨h1.trans (by decide), h2.trans (by decide)⟩

/-!
Export base filename, EditorClient.tsx lines 1153–1160:
`(projectName || template.name).toLowerCase().replace(/[^a-z0-9]+/g, "-")
.replace(/^-|-$/g, "") || "template"`.

`collapseAux` embeds the global replace of `[^a-z0-9]+` runs by one hyphen
(the flag tracks being inside a run whose hyphen is already emitted);
`dropLeadHyphen`/`dropTailHyphen` embed the anchored `^-|-$` replace, which
removes at most one leading and one trailing hyphen. -/

def isLowerAlnum (c : Char) : Bool :=
  (('a' ≤ c) && (c ≤ 'z')) || (('0' ≤ c) && (c ≤ '9'))

def goodChar (c : Char) : Bool := isLowerAlnum c || c == '-'

/-- JS `toLowerCase`, restricted to its ASCII case mapping. -/
def jsToLower (l : List Char) : List Char := l.map Char.toLower

def collapseAux : Bool → List Char → List Char
  | _, [] => []
  | inRun, c :: rest =>
      if isLowerAlnum c then c :: collapseAux false rest
      else if inRun then collapseAux true rest
      else '-' :: collapseAux true rest

def collapseNonAlnum (l : List Char) : List Char := collapseAux false l

def dropLeadHyphen (l : List Char) : List Char :=
  match l with
  | [] => []
  | c :: rest => if c = '-' then rest else c :: rest

def dropTailHyphen (l : List Char) : List Char :=
  if l.getLast? = some '-' then l.dropLast else l

def dropEdgeHyphens (l : List Char) : List Char :=
  dropTailHyphen (dropLeadHyphen l)

/-- Sanitization pipeline of `baseName` applied to the chosen source string:
lowercase, collapse non-alphanumeric runs to hyphens, strip edge hyphens,
default to "template" when empty (the trailing `|| "template"`). -/
def baseNameCore (src : String) : String :=
  let cleaned := dropEdgeHyphens (collapseNonAlnum (jsToLower src.data))
  if cleaned = [] then "template" else String.mk cleaned

/-- `baseName` from EditorClient.tsx lines 1153–1160; the JS
`projectName || template.name` falls back on the empty string. -/
def baseName (projectName templateName : String) : String :=
  baseNameCore (if projectName = "" then templateName else projectName)

def noDoubleHyphen : List Char → Bool
  | a :: b :: rest => (!(a == '-' && b == '-')) && noDoubleHyphen (b :: rest)
  | _ => true

theorem isLowerAlnum_ne_hyphen {c : Char} (h : isLowerAlnum c = true) :
    (c == '-') = false := by
  cases hb : (c == '-') with
  | false => rfl
  | true =>
      have hc : c = '-' := by simpa using hb
      subst hc
      exact absurd h (by decide)

theorem collapseAux_all_goodChar (l : List Char) :
    ∀ b, (collapseAux b l).all goodChar = true := by
  induction l with
  | nil => intro b; rfl
  | cons c rest ih =>
      intro b
      by_cases hc : isLowerAlnum c
      · simp [collapseAux, hc, goodChar, ih false]
      · cases b
        · simp [collapseAux, hc, goodChar, ih true]
        · simp [collapseAux, hc, ih true]

theorem collapseAux_true_head (l : List Char) :
    ∀ {c tl}, collapseAux true l = c :: tl → isLowerAlnum c = true := by
  induction l with
  | nil => intro c tl h; exact absurd h (by simp [collapseAux])
  | cons a rest ih =>
      intro c tl h
      by_cases ha : isLowerAlnum a
      · rw [collapseAux, if_pos ha] at h
        injection h with h1 _
        rw [← h1]
        exact ha
      · rw [collapseAux, if_neg ha, if_pos rfl] at h
        exact ih h

theorem collapseAux_noDoubleHyphen (l : List Char) :
    ∀ b, noDoubleHyphen (collapseAux b l) = true := by
  induction l with
  | nil => intro b; rfl
  | cons c rest ih =>
      intro b
      by_cases hc : isLowerAlnum c
      · rw [collapseAux, if_pos hc]
        have htl := ih false
        rcases hrec : collapseAux false rest with _ | ⟨d, tl⟩
        · rfl
        · rw [hrec] at htl
          rw [noDoubleHyphen, htl, isLowerAlnum_ne_hyphen hc]
          rfl
      · cases b
        · rw [collapseAux, if_neg hc, if_neg (by simp)]
          have htl := ih true
          rcases hrec : collapseAux true rest with _ | ⟨d, tl⟩
          · rfl
          · rw [hrec] at htl
            have hd := collapseAux_true_head rest hrec
            rw [noDoubleHyphen, htl, isLowerAlnum_ne_hyphen hd]
            rfl
        · rw [collapseAux, if_neg hc, if_pos rfl]
          exact ih true

theorem noDoubleHyphen_tail {a : Char} {l : List Char}
    (h : noDoubleHyphen (a :: l) = true) : noDoubleHyphen l = true := by
  cases l with
  | nil => rfl
  | cons b rest =>
      rw [noDoubleHyphen, Bool.and_eq_true] at h
      exact h.2

theorem all_tail {p : Char → Bool} {a : Char} {l : List Char}
    (h : (a :: l).all p = true) : l.all p = true := by
  rw [List.all_cons, Bool.and_eq_true] at h
  exact h.2

theorem all_dropLast (p : Char → Bool) :
    ∀ l : List Char, l.all p = true → l.dropLast.all p = true := by
  intro l
  induction l with
  | nil => intro _; rfl
  | cons a rest ih =>
      intro h
      cases rest with
      | nil => rfl
      | cons b tl =>
          rw [List.dropLast_cons₂, List.all_cons, Bool.and_eq_true]
          rw [List.all_cons, Bool.and_eq_true] at h
          exact ⟨h.1, ih h.2⟩

theorem noDoubleHyphen_dropLast :
    ∀ l : List Char, noDoubleHyphen l = true → noDoubleHyphen l.dropLast = true := by
  intro l
  induction l with
  | nil => intro _; rfl
  | cons a rest ih =>
      intro h
      cases rest with
      | nil => rfl
      | cons b tl =>
          rw [List.dropLast_cons₂]
          cases tl with
          | nil => rfl
          | cons d tl2 =>
              rw [noDoubleHyphen, Bool.and_eq_true] at h
              rw [List.dropLast_cons₂] at ih ⊢
              rw [noDoubleHyphen, Bool.and_eq_true]
              exact ⟨h.1, ih h.2⟩

theorem head_dropLeadHyphen {l : List Char} (h : noDoubleHyphen l = true) :
    (dropLeadHyphen l).head? ≠ some '-' := by
  cases l with
  | nil => simp [dropLeadHyphen]
  | cons c rest =>
      rw [dropLeadHyphen]
      split
      · rename_i hc
        subst hc
        cases rest with
        | nil => simp
        | cons b tl =>
            rw [noDoubleHyphen, Bool.and_eq_true] at h
            obtain ⟨h1, -⟩ := h
            simp only [List.head?_cons, ne_eq, Option.some.injEq]
            intro hbe
            subst hbe
            simp at h1
      · rename_i hc
        simp only [List.head?_cons, ne_eq, Option.some.injEq]
        intro hce
        exact hc hce

theorem head_dropTailHyphen {l : List Char} (h : l.head? ≠ some '-') :
    (dropTailHyphen l).head? ≠ some '-' := by
  rw [dropTailHyphen]
  split
  · cases l with
    | nil => simp
    | cons a rest =>
        cases rest with
        | nil => simp
        | cons b tl =>
            rw [List.dropLast_cons₂]
            simpa using h
  · exact h

theorem noDoubleHyphen_append_hh (m : List Char) :
    noDoubleHyphen (m ++ ['-', '-']) = false := by
  induction m with
  | nil => rfl
  | cons c m2 ih =>
      cases m2 with
      | nil => simp [noDoubleHyphen]
      | cons d m3 =>
          rw [List.cons_append] at ih
          show (!(c == '-' && d == '-')
            && noDoubleHyphen (d :: (m3 ++ ['-', '-']))) = false
          rw [ih]
          simp

theorem eq_dropLast_append {l : List Char} {c : Char}
    (h : l.getLast? = some c) : l = l.dropLast ++ [c] := by
  have hne : l ≠ [] := by rintro rfl; simp at h
  have hg := List.getLast?_eq_getLast l hne
  rw [hg] at h
  injection h with hc
  rw [← hc]
  exact (List.dropLast_append_getLast hne).symm

theorem getLast_dropTailHyphen {l : List Char} (h : noDoubleHyphen l = true) :
    (dropTailHyphen l).getLast? ≠ some '-' := by
  rw [dropTailHyphen]
  split
  · rename_i hl
    intro hd
    have h1 : l = l.dropLast ++ ['-'] := eq_dropLast_append hl
    have h2 : l.dropLast = l.dropLast.dropLast ++ ['-'] := eq_dropLast_append hd
    rw [h1, h2, List.append_assoc, List.singleton_append] at h
    rw [noDoubleHyphen_append_hh] at h
    exact Bool.false_ne_true h
  · rename_i hl
    exact hl

theorem all_dropTailHyphen {p : Char → Bool} {l : List Char}
    (h : l.all p = true) : (dropTailHyphen l).all p = true := by
  rw [dropTailHyphen]
  split
  · exact all_dropLast p l h
  · exact h

theorem noDoubleHyphen_dropTailHyphen {l : List Char}
    (h : noDoubleHyphen l = true) : noDoubleHyphen (dropTailHyphen l) = true := by
  rw [dropTailHyphen]
  split
  · exact noDoubleHyphen_dropLast l h
  · exact h

theorem all_dropLeadHyphen {p : Char → Bool} {l : List Char}
    (h : l.all p = true) : (dropLeadHyphen l).all p = true := by
  cases l with
  | nil => rfl
  | cons c rest =>
      rw [dropLeadHyphen]
      split
      · exact all_tail h
      · exact h

theorem noDoubleHyphen_dropLeadHyphen {l : List Char}
    (h : noDoubleHyphen l = true) : noDoubleHyphen (dropLeadHyphen l) = true := by
  cases l with
  | nil => rfl
  | cons c rest =>
      rw [dropLeadHyphen]
      split
      · exact noDoubleHyphen_tail h
      · exact h

theorem baseNameCore_sanitized (src : String) :
    baseNameCore src ≠ "" ∧
    (baseNameCore src).data.all goodChar = true ∧
    (baseNameCore src).data.head? ≠ some '-' ∧
    (baseNameCore src).data.getLast? ≠ some '-' ∧
    noDoubleHyphen (baseNameCore src).data = true ∧
    (dropEdgeHyphens (collapseNonAlnum (jsToLower src.data)) = []
      → baseNameCore src = "template") := by
  rw [baseNameCore]
  split
  · exact ⟨by decide, by decide, by decide, by decide, by decide, fun _ => rfl⟩
  · rename_i hne
    have hout : noDoubleHyphen
        (collapseNonAlnum (jsToLower src.data)) = true :=
      collapseAux_noDoubleHyphen _ false
    have hall : (collapseNonAlnum (jsToLower src.data)).all goodChar = true :=
      collapseAux_all_goodChar _ false
    have hlead := noDoubleHyphen_dropLeadHyphen hout
    refine ⟨?_, ?_, ?_, ?_, ?_, fun hc => absurd hc hne⟩
    · intro hcon
      apply hne
      have hdata := congrArg String.data hcon
      simpa [dropEdgeHyphens] using hdata
    · exact all_dropTailHyphen (all_dropLeadHyphen hall)
    · exact head_dropTailHyphen (head_dropLeadHyphen hout)
    · exact getLast_dropTailHyphen hlead
    · exact noDoubleHyphen_dropTailHyphen hlead

/-- C10: for every project and template name, the derived export base filename
is a non-empty string of lowercase ASCII letters, digits and hyphens, with no
leading or trailing hyphen and no two consecutive hyphens; when sanitization
leaves nothing the result is exactly "template". -/
theorem export_base_name_sanitized (p t : String) :
    baseName p t ≠ "" ∧
    (baseName p t).data.all goodChar = true ∧
    (baseName p t).data.head? ≠ some '-' ∧
    (baseName p t).data.getLast? ≠ some '-' ∧
    noDoubleHyphen (baseName p t).data = true ∧
    (dropEdgeHyphens (collapseNonAlnum
        (jsToLower (if p = "" then t else p).data)) = []
      → baseName p t = "template") := by
  simpa only [baseName] using baseNameCore_sanitized (if p = "" then t else p)

/-- C10 witness for the implication clause: an all-punctuation project name
sanitizes to nothing and yields exactly "template". -/
theorem export_base_name_sanitized_witness :
    baseName "%%%" "" = "template" ∧
    (baseName "" "Stats Report 3").data.all goodChar = true := by
  obtain ⟨-, -, -, -, -, himp⟩ := export_base_name_sanitized "%%%" ""
  obtain ⟨-, hall, -, -, -, -⟩ := export_base_name_sanitized "" "Stats Report 3"
  exact ⟨himp (by decide), hall⟩

/-!
Pie chart sync: `detectAllPieCharts` (EditorClient.tsx lines 228–246) and
`updatePieChart` (lines 1277–1307).

A discovered two-arc chart is an SVG with exactly two `path[stroke-dasharray]`
elements; it is embedded as the triple of the attribute strings the code reads
and writes.  `parseFloatLead` embeds JS `parseFloat` on plain decimal literals
(optional sign, digits, optional fraction).  Exponent suffixes are not
modeled: on "1e9" the model reads the leading "1" and ignores the suffix,
where JS would apply the exponent; "Infinity" parses to `none` where JS reads
an infinite value.  Neither shape is ever written by the updater, whose dash
strings are plain integers.  The percent-label rewriting and the deferred
`commitFromDom` in `updatePieChart` touch neither dash attribute, so they are
outside this model.

The slider (`input type="range" min=0 max=100`, line 2638) makes the applied
value an integer in `[0, 100]`. -/

structure ArcPair where
  firstDash : String
  secondDash : String
  secondOffset : String
deriving DecidableEq, Repr

def digitsToNat : List Char → ℕ → ℕ
  | [], acc => acc
  | c :: rest, acc => digitsToNat rest (acc * 10 + (c.toNat - '0'.toNat))

/-- Value of an unsigned decimal literal `ds [. fs]` as a rational. -/
def decimalValue (ds fs : List Char) : ℚ :=
  if fs = [] then (digitsToNat ds 0 : ℚ)
  else (digitsToNat ds 0 : ℚ) + (digitsToNat fs 0 : ℚ) / (10 : ℚ) ^ fs.length

def parseFloatLead (l : List Char) : Option ℚ :=
  let l1 := l.dropWhile (fun c => c.isWhitespace)
  let neg := l1.head? = some '-'
  let l2 := if l1.head? = some '-' ∨ l1.head? = some '+' then l1.tail else l1
  let ds := l2.takeWhile (fun c => c.isDigit)
  let rest2 := l2.drop ds.length
  let fs := if rest2.head? = some '.' then
    rest2.tail.takeWhile (fun c => c.isDigit) else []
  if ds = [] ∧ fs = [] then none
  else some (if neg then -(decimalValue ds fs) else decimalValue ds fs)

/-- `parseFloat(dashA.split(",")[0])`. -/
def firstDashValue (s : String) : Option ℚ :=
  parseFloatLead (s.data.takeWhile (fun d => !(d == ',')))

/-- Discovery condition of `detectAllPieCharts`: non-empty dash attribute whose
leading number satisfies `val > 0 && val <= 100`. -/
def detectChart (c : ArcPair) : Option ℚ :=
  if c.firstDash = "" then none
  else
    match firstDashValue c.firstDash with
    | none => none
    | some v => if 0 < v ∧ v ≤ 100 then some v else none

/-- Reading the primary arc dash length back, the same way discovery reads it. -/
def readDash (c : ArcPair) : Option ℚ := firstDashValue c.firstDash

def detectAllPieCharts (doc : List ArcPair) : List (ArcPair × ℚ) :=
  doc.filterMap (fun c => (detectChart c).map (fun v => (c, v)))

/-- Attribute writes of the `updatePieChart` loop body at value `val`:
`${val}, 100`, `${100 - val}, 100` and `-${val}`. -/
def mkApplied (val : ℕ) : ArcPair :=
  { firstDash := toString val ++ ", 100"
    secondDash := toString ((100 : ℤ) - val) ++ ", 100"
    secondOffset := "-" ++ toString val }

def applyPieToChart (val : ℕ) (c : ArcPair) : ArcPair :=
  if (detectChart c).isSome then mkApplied val else c

/-- `updatePieChart`: early return when no chart is discovered, otherwise every
discovered chart gets the three attribute writes. -/
def updatePieCharts (doc : List ArcPair) (val : ℕ) : List ArcPair :=
  if detectAllPieCharts doc = [] then doc
  else doc.map (applyPieToChart val)

theorem nat_repr_digits : ∀ v : ℕ, v < 101 →
    ((Nat.repr v).data.all (fun c => c.isDigit)) = true ∧
    (Nat.repr v).data ≠ [] ∧
    digitsToNat (Nat.repr v).data 0 = v := by decide

theorem isDigit_not_ws {c : Char} (h : c.isDigit = true) :
    c.isWhitespace = false := by
  cases hw : c.isWhitespace
  · rfl
  · exfalso
    simp [Char.isWhitespace] at hw
    rcases hw with ((rfl | rfl) | rfl) | rfl <;> simp [Char.isDigit] at h

theorem isDigit_ne_minus {c : Char} (h : c.isDigit = true) : c ≠ '-' := by
  rintro rfl
  simp [Char.isDigit] at h

theorem isDigit_ne_plus {c : Char} (h : c.isDigit = true) : c ≠ '+' := by
  rintro rfl
  simp [Char.isDigit] at h

theorem isDigit_beq_comma {c : Char} (h : c.isDigit = true) :
    (c == ',') = false := by
  cases hb : (c == ',')
  · rfl
  · have : c = ',' := by simpa using hb
    subst this
    simp [Char.isDigit] at h

theorem takeWhile_all {p : Char → Bool} :
    ∀ l : List Char, l.all p = true → l.takeWhile p = l := by
  intro l h
  induction l with
  | nil => rfl
  | cons a tl ih =>
      rw [List.all_cons, Bool.and_eq_true] at h
      rw [List.takeWhile_cons, if_pos h.1, ih h.2]

theorem takeWhile_append_stop {p : Char → Bool} {y : Char} (ys : List Char)
    (hy : p y = false) :
    ∀ xs : List Char, xs.all p = true →
      List.takeWhile p (xs ++ y :: ys) = xs := by
  intro xs h
  induction xs with
  | nil => simp [List.takeWhile_cons, hy]
  | cons a tl ih =>
      rw [List.all_cons, Bool.and_eq_true] at h
      rw [List.cons_append, List.takeWhile_cons, if_pos h.1, ih h.2]

theorem parse_digits (ds : List Char) (hne : ds ≠ [])
    (hall : ds.all (fun c => c.isDigit) = true) :
    parseFloatLead ds = some ((digitsToNat ds 0 : ℚ)) := by
  obtain ⟨d, tl, rfl⟩ := List.exists_cons_of_ne_nil hne
  have hd : d.isDigit = true := by
    rw [List.all_cons, Bool.and_eq_true] at hall
    exact hall.1
  have h1 : (d :: tl).dropWhile (fun c => c.isWhitespace) = d :: tl := by
    rw [List.dropWhile_cons, isDigit_not_ws hd]
    simp
  have hsign : ¬(some d = some '-' ∨ some d = some '+') := by
    rintro (hc | hc) <;> injection hc with hc
    · exact isDigit_ne_minus hd hc
    · exact isDigit_ne_plus hd hc
  have hnegc : ¬(some d = some '-') := by
    intro hc
    injection hc with hc
    exact isDigit_ne_minus hd hc
  simp only [parseFloatLead, h1, List.head?_cons, if_neg hsign,
    takeWhile_all _ hall, List.drop_length, List.head?_nil,
    if_neg (show ¬((none : Option Char) = some '.') from
      fun hc => Option.noConfusion hc),
    if_neg hnegc]
  simp [decimalValue]

theorem firstDashValue_repr (v : ℕ) (hv : v < 101) :
    firstDashValue (toString v ++ ", 100") = some (v : ℚ) := by
  obtain ⟨hall, hne, hval⟩ := nat_repr_digits v hv
  have htos : (toString v : String) = Nat.repr v := rfl
  have hcomma : (", 100").data = ',' :: [' ', '1', '0', '0'] := rfl
  have hallc : (Nat.repr v).data.all (fun d => !(d == ',')) = true := by
    rw [List.all_eq_true] at hall ⊢
    intro c hc
    rw [isDigit_beq_comma (hall c hc)]
    rfl
  rw [firstDashValue, htos, String.data_append, hcomma,
    takeWhile_append_stop _ (by rfl) _ hallc,
    parse_digits _ hne hall, hval]

theorem detect_mkApplied (v : ℕ) (h1 : 1 ≤ v) (h2 : v ≤ 100) :
    detectChart (mkApplied v) = some ((v : ℕ) : ℚ) := by
  have hfd : (mkApplied v).firstDash = toString v ++ ", 100" := rfl
  have hne : (toString v ++ ", 100" : String) ≠ "" := by
    intro hcon
    have hdata := congrArg String.data hcon
    rw [String.data_append] at hdata
    have : ((", 100" : String).data).length = 0 := by
      have := congrArg List.length hdata
      simp at this
    simp at this
  rw [detectChart, hfd]
  rw [if_neg hne]
  simp only [firstDashValue_repr v (by omega)]
  rw [if_pos ⟨by exact_mod_cast h1, by exact_mod_cast h2⟩]

theorem readDash_mkApplied (v : ℕ) (hv : v < 101) :
    readDash (mkApplied v) = some ((v : ℕ) : ℚ) := by
  have hfd : (mkApplied v).firstDash = toString v ++ ", 100" := rfl
  rw [readDash, hfd, firstDashValue_repr v hv]

/-- A chart whose primary dash was just written with 0 fails discovery:
`parseFloat("0") = 0` does not pass `val > 0`. -/
theorem detect_mkApplied_zero : detectChart (mkApplied 0) = none := by
  have hfd : (mkApplied 0).firstDash = toString 0 ++ ", 100" := rfl
  have hne : (toString 0 ++ ", 100" : String) ≠ "" := by
    intro hcon
    have hdata := congrArg String.data hcon
    rw [String.data_append] at hdata
    have : ((", 100" : String).data).length = 0 := by
      have := congrArg List.length hdata
      simp at this
    simp at this
  rw [detectChart, hfd]
  rw [if_neg hne]
  simp only [firstDashValue_repr 0 (by omega)]
  rw [if_neg ?_]
  rintro ⟨hpos, -⟩
  rw [Nat.cast_zero] at hpos
  exact lt_irrefl _ hpos

theorem applyPie_detected {c : ArcPair} (h : (detectChart c).isSome = true)
    (val : ℕ) : applyPieToChart val c = mkApplied val := by
  rw [applyPieToChart, if_pos h]

theorem applyPie_not_detected {c : ArcPair}
    (h : (detectChart c).isSome = false) (val : ℕ) :
    applyPieToChart val c = c := by
  rw [applyPieToChart, if_neg (by simp [h])]

theorem pie_elem_round_trip (val : ℕ) (h1 : 1 ≤ val) (h2 : val ≤ 99)
    (c : ArcPair) :
    applyPieToChart val (applyPieToChart (100 - val) (applyPieToChart val c))
      = applyPieToChart val c := by
  cases hdet : (detectChart c).isSome with
  | false =>
      rw [applyPie_not_detected hdet, applyPie_not_detected hdet,
        applyPie_not_detected hdet]
  | true =>
      have d1 : (detectChart (mkApplied val)).isSome = true := by
        rw [detect_mkApplied val h1 (by omega)]
        rfl
      have d2 : (detectChart (mkApplied (100 - val))).isSome = true := by
        rw [detect_mkApplied (100 - val) (by omega) (by omega)]
        rfl
      rw [applyPie_detected hdet, applyPie_detected d1, applyPie_detected d2]

theorem detectAll_eq_nil_iff (doc : List ArcPair) :
    detectAllPieCharts doc = [] ↔ ∀ c ∈ doc, detectChart c = none := by
  simp [detectAllPieCharts, List.filterMap_eq_nil_iff]

theorem updatePie_of_nil {doc : List ArcPair}
    (h : detectAllPieCharts doc = []) (val : ℕ) :
    updatePieCharts doc val = doc := by
  rw [updatePieCharts, if_pos h]

theorem updatePie_of_ne {doc : List ArcPair}
    (h : ¬detectAllPieCharts doc = []) (val : ℕ) :
    updatePieCharts doc val = doc.map (applyPieToChart val) := by
  rw [updatePieCharts, if_neg h]

theorem pie_doc_round_trip (doc : List ArcPair) (val : ℕ) (h2 : val ≤ 99) :
    updatePieCharts (updatePieCharts (updatePieCharts doc val) (100 - val)) val
      = updatePieCharts doc val := by
  by_cases hnil : detectAllPieCharts doc = []
  · rw [updatePie_of_nil hnil, updatePie_of_nil hnil, updatePie_of_nil hnil]
  · rcases Nat.eq_zero_or_pos val with rfl | h1
    · rw [updatePie_of_ne hnil]
      have hmap0 : detectAllPieCharts (doc.map (applyPieToChart 0)) = [] := by
        rw [detectAll_eq_nil_iff]
        intro x hx
        rw [List.mem_map] at hx
        obtain ⟨c, -, rfl⟩ := hx
        cases hdet : (detectChart c).isSome with
        | true =>
            rw [applyPie_detected hdet]
            exact detect_mkApplied_zero
        | false =>
            rw [applyPie_not_detected hdet]
            cases hh : detectChart c
            · rfl
            · rw [hh] at hdet
              exact Bool.noConfusion hdet
      rw [updatePie_of_nil hmap0, updatePie_of_nil hmap0]
    · have d1 : (detectChart (mkApplied val)).isSome = true := by
        rw [detect_mkApplied val h1 (by omega)]
        rfl
      obtain ⟨c0, hc0mem, hc0⟩ : ∃ c ∈ doc, detectChart c ≠ none := by
        by_contra hcon
        push_neg at hcon
        exact hnil ((detectAll_eq_nil_iff doc).mpr hcon)
      have hc0s : (detectChart c0).isSome = true := by
        cases hh : detectChart c0
        · exact absurd hh hc0
        · rfl
      rw [updatePie_of_ne hnil]
      have hne1 : ¬detectAllPieCharts (doc.map (applyPieToChart val)) = [] := by
        intro hcon
        have hmem : mkApplied val ∈ doc.map (applyPieToChart val) :=
          List.mem_map.mpr ⟨c0, hc0mem, applyPie_detected hc0s val⟩
        have := (detectAll_eq_nil_iff _).mp hcon (mkApplied val) hmem
        rw [detect_mkApplied val h1 (by omega)] at this
        exact Option.noConfusion this
      rw [updatePie_of_ne hne1, List.map_map]
      have hne2 : ¬detectAllPieCharts
          (doc.map (applyPieToChart (100 - val) ∘ applyPieToChart val)) = [] := by
        intro hcon
        have hmem : mkApplied (100 - val)
            ∈ doc.map (applyPieToChart (100 - val) ∘ applyPieToChart val) :=
          List.mem_map.mpr ⟨c0, hc0mem, by
            simp only [Function.comp_apply]
            rw [applyPie_detected hc0s, applyPie_detected d1]⟩
        have := (detectAll_eq_nil_iff _).mp hcon _ hmem
        rw [detect_mkApplied (100 - val) (by omega) (by omega)] at this
        exact Option.noConfusion this
      rw [updatePie_of_ne hne2, List.map_map]
      refine List.map_congr_left ?_
      intro a _
      simp only [Function.comp_apply]
      exact pie_elem_round_trip val h1 h2 a

def pieC0 : ArcPair := ⟨"40, 100", "60, 100", "-40"⟩

/-- C5 counterexample: the claim fails at p = 100.  Applying 100 writes dash
"100, 100"/"0, 100"; applying 100−100 = 0 then writes "0, 100" on the primary
arc, after which the chart is no longer discovered (`val > 0` fails), so the
final application of 100 is a no-op and the dash values of the first
application are not restored. -/
theorem chart_sync_counterexample :
    (detectChart pieC0).isSome = true ∧
    updatePieCharts (updatePieCharts (updatePieCharts [pieC0] 100) (100 - 100))
        100
      ≠ updatePieCharts [pieC0] 100 := by
  constructor
  · decide
  · decide

/-- C5 (amended): for every slider percentage p in [0, 100], reading back the
primary arc dash length right after applying p yields exactly p for each
discovered chart; and for every p except 100, applying p, then 100−p, then p
again through the chart updater restores the dash values of the first
application bit-for-bit (at p = 0 because the complement application no
longer discovers the chart and is a no-op).  Only the boundary p = 100 fails
the round trip (see the counterexample). -/
theorem chart_sync_round_trip (doc : List ArcPair) (val : ℕ)
    (hval : val ≤ 100) :
    (val ≠ 100 →
      updatePieCharts (updatePieCharts (updatePieCharts doc val) (100 - val))
          val
        = updatePieCharts doc val) ∧
    ∀ c ∈ doc, (detectChart c).isSome = true →
      readDash (applyPieToChart val c) = some ((val : ℕ) : ℚ) := by
  refine ⟨fun hne => pie_doc_round_trip doc val (by omega), fun c _ hdet => ?_⟩
  rw [applyPie_detected hdet, readDash_mkApplied val (by omega)]

/-- C5 witness: the round trip at p = 0 and p = 40 and the readback at p = 40
on a discovered chart. -/
theorem chart_sync_round_trip_witness :
    updatePieCharts (updatePieCharts (updatePieCharts [pieC0] 0) (100 - 0)) 0
      = updatePieCharts [pieC0] 0 ∧
    updatePieCharts (updatePieCharts (updatePieCharts [pieC0] 40) (100 - 40)) 40
      = updatePieCharts [pieC0] 40 ∧
    readDash (applyPieToChart 40 pieC0) = some ((40 : ℕ) : ℚ) := by
  obtain ⟨hZ, -⟩ := chart_sync_round_trip [pieC0] 0 (by decide)
  obtain ⟨hA, hB⟩ := chart_sync_round_trip [pieC0] 40 (by decide)
  exact ⟨hZ (by decide), hA (by decide), hB pieC0 (by decide) (by decide)⟩

/-!
Bar sync: `syncDemographicBars` (EditorClient.tsx lines 159–175).

A discovered row is a `.grid.grid-cols-12` element; its cells are embedded by
the data the code touches: `className` and `textContent`.  The value text is
trimmed and matched against `^(\d+(?:\.\d+)?)\s*%?\s*$`; the parsed number is
clamped into `[0, 100]`, the bar span is `Math.round(12 * pct / 100)`, and
both spans are written by the global class replace `/\bcol-span-\d+/g`.
`jsRound12Span` computes `Math.round(12 * pct / 100)` on the exact rational
(JS rounds half toward positive infinity); `jsRound12Span_eq_floor` bridges it
to the `⌊12·pct/100 + 1/2⌋` form.  The class replace is embedded exactly
(word-boundary check, literal, maximal digit run), with a fuel argument equal
to the string length so the recursion is structural. -/

structure GridCell where
  className : String
  textContent : String
deriving DecidableEq, Repr

def jsTrim (s : String) : List Char :=
  ((s.data.dropWhile (fun c => c.isWhitespace)).reverse.dropWhile
    (fun c => c.isWhitespace)).reverse

/-- Tail `\s*%?\s*$` of the percent regex. -/
def percentTail (l : List Char) : Bool :=
  let l1 := l.dropWhile (fun c => c.isWhitespace)
  let l2 := if l1.head? = some '%' then l1.tail else l1
  l2.all (fun c => c.isWhitespace)

/-- `valueText.trim().match(/^(\d+(?:\.\d+)?)\s*%?\s*$/)` followed by
`parseFloat(match[1])`, as an exact rational. -/
def parsePercentText (s : String) : Option ℚ :=
  let t := jsTrim s
  let ds := t.takeWhile (fun c => c.isDigit)
  if ds = [] then none
  else
    let rest := t.drop ds.length
    if rest.head? = some '.' then
      let fs := rest.tail.takeWhile (fun c => c.isDigit)
      if fs = [] then none
      else if percentTail (rest.tail.drop fs.length) then
        some (decimalValue ds fs)
      else none
    else if percentTail rest then some (decimalValue ds [])
    else none

/-- `Math.round(12 * pct / 100)` on the exact rational `pct = num/den`:
`⌊x + 1/2⌋` for `x = (12·num)/(100·den)`, computed as an integer floor
division so it evaluates in the kernel. -/
def jsRound12Span (pct : ℚ) : ℤ :=
  (2 * (12 * pct.num) + 100 * (pct.den : ℤ)) / (2 * (100 * (pct.den : ℤ)))

/-- JS `\w` (ASCII word character). -/
def isWordChar (c : Char) : Bool := c.isAlphanum || c == '_'

/-- Match `col-span-\d+` at the head of the list: the literal, then a maximal
non-empty digit run; returns the remainder after the digits. -/
def matchColSpanAt (l : List Char) : Option (List Char) :=
  if l.take 9 = "col-span-".data then
    let rest := l.drop 9
    let ds := rest.takeWhile (fun c => c.isDigit)
    if ds = [] then none else some (rest.drop ds.length)
  else none

/-- One left-to-right pass of `/\bcol-span-\d+/g` replacement.  `prev` is the
previously consumed character (`none` at the start); after a replacement the
last consumed source character is a digit, so scanning resumes with a digit as
`prev` (any digit is equivalent; only word-character-ness matters).  The fuel
is at least the list length, and each step consumes at least one character. -/
def replaceColSpanGo (n : List Char) : Nat → Option Char → List Char → List Char
  | 0, _, l => l
  | _ + 1, _, [] => []
  | fuel + 1, prev, c :: rest =>
      if (match prev with | none => true | some p => !(isWordChar p)) then
        match matchColSpanAt (c :: rest) with
        | some rem => n ++ replaceColSpanGo n fuel (some '0') rem
        | none => c :: replaceColSpanGo n fuel (some c) rest
      else c :: replaceColSpanGo n fuel (some c) rest

/-- `className.replace(/\bcol-span-\d+/g, `col-span-${cols}`)`. -/
def replaceColSpan (s : String) (cols : ℤ) : String :=
  String.mk (replaceColSpanGo ("col-span-" ++ toString cols).data
    s.data.length none s.data)

/-- First `\bcol-span-\d+` occurrence read back as a number (span readback). -/
def firstColSpanGo : Nat → Option Char → List Char → Option ℕ
  | 0, _, _ => none
  | _ + 1, _, [] => none
  | fuel + 1, prev, c :: rest =>
      if (match prev with | none => true | some p => !(isWordChar p)) then
        if (c :: rest).take 9 = "col-span-".data then
          let ds := ((c :: rest).drop 9).takeWhile (fun c => c.isDigit)
          if ds = [] then firstColSpanGo fuel (some c) rest
          else some (digitsToNat ds 0)
        else firstColSpanGo fuel (some c) rest
      else firstColSpanGo fuel (some c) rest

def firstColSpanValue (s : String) : Option ℕ :=
  firstColSpanGo s.data.length none s.data

/-- The `rows.forEach` body of `syncDemographicBars` on one discovered row. -/
def syncBarsRow (row : List GridCell) : List GridCell :=
  match row with
  | [barCell, valueCell] =>
      match parsePercentText valueCell.textContent with
      | none => row
      | some pct0 =>
          let pct := min 100 (max 0 pct0)
          let barCols := jsRound12Span pct
          let valueCols := 12 - barCols
          if barCols < 1 ∨ valueCols < 1 then row
          else [⟨replaceColSpan barCell.className barCols, barCell.textContent⟩,
                ⟨replaceColSpan valueCell.className valueCols,
                  valueCell.textContent⟩]
  | _ => row

/-- `syncDemographicBars` over the discovered `.grid.grid-cols-12` rows. -/
def syncDemographicBars (rows : List (List GridCell)) : List (List GridCell) :=
  rows.map syncBarsRow

theorem jsRound12Span_eq_floor (pct : ℚ) :
    jsRound12Span pct = ⌊12 * pct / 100 + 1 / 2⌋ := by
  have hden : ((pct.den : ℚ)) ≠ 0 := by
    exact_mod_cast (Rat.den_pos pct).ne'
  have key : 12 * pct / 100 + 1 / 2
      = ((2 * (12 * pct.num) + 100 * (pct.den : ℤ) : ℤ) : ℚ)
        / ((2 * (100 * pct.den) : ℕ) : ℚ) := by
    conv_lhs => rw [← Rat.num_div_den pct]
    push_cast
    field_simp
    ring
  rw [key, Rat.floor_intCast_div_natCast, jsRound12Span]
  push_cast
  rfl

/-- C6: for a two-cell grid row, when the second cell text fails the percent
parse the row is untouched; when it parses to `pct`, the bar span is
`Math.round(12·pct/100)` of the clamped value (equal to `⌊12·pct/100 + 1/2⌋`,
and the clamp is the identity on `[0, 100]`), the value span is its 12
complement, a zero span on either side leaves the row completely untouched,
and otherwise both cell class lists get the global `col-span` rewrite with the
two spans. -/
theorem bar_sync_spans (barCell valueCell : GridCell) :
    (parsePercentText valueCell.textContent = none →
      syncBarsRow [barCell, valueCell] = [barCell, valueCell]) ∧
    (∀ pct : ℚ, parsePercentText valueCell.textContent = some pct →
      jsRound12Span (min 100 (max 0 pct))
          = ⌊12 * min 100 (max 0 pct) / 100 + 1 / 2⌋ ∧
      (0 ≤ pct → pct ≤ 100 → min 100 (max 0 pct) = pct) ∧
      ((jsRound12Span (min 100 (max 0 pct)) < 1
          ∨ 12 - jsRound12Span (min 100 (max 0 pct)) < 1) →
        syncBarsRow [barCell, valueCell] = [barCell, valueCell]) ∧
      (1 ≤ jsRound12Span (min 100 (max 0 pct)) →
        jsRound12Span (min 100 (max 0 pct)) ≤ 11 →
        syncBarsRow [barCell, valueCell]
          = [⟨replaceColSpan barCell.className
                (jsRound12Span (min 100 (max 0 pct))), barCell.textContent⟩,
             ⟨replaceColSpan valueCell.className
                (12 - jsRound12Span (min 100 (max 0 pct))),
              valueCell.textContent⟩])) := by
  refine ⟨fun hp => ?_, fun pct hp => ?_⟩
  · simp only [syncBarsRow, hp]
  · refine ⟨jsRound12Span_eq_floor _, fun h0 h100 => ?_, fun hsp => ?_,
      fun hb1 hb2 => ?_⟩
    · rw [max_eq_right h0, min_eq_right h100]
    · simp only [syncBarsRow, hp]
      rw [if_pos hsp]
    · simp only [syncBarsRow, hp]
      rw [if_neg (by omega)]

/-- C6 witness: "45%" gives spans 5 and 7; the rewritten bar class reads back
as span 5. -/
theorem bar_sync_spans_witness :
    syncBarsRow [⟨"col-span-7 bg-emerald-500 h-3", ""⟩,
        ⟨"col-span-5 text-right", "45%"⟩]
      = [⟨"col-span-5 bg-emerald-500 h-3", ""⟩,
         ⟨"col-span-7 text-right", "45%"⟩] ∧
    firstColSpanValue "col-span-5 bg-emerald-500 h-3" = some 5 := by
  obtain ⟨-, h2⟩ := bar_sync_spans ⟨"col-span-7 bg-emerald-500 h-3", ""⟩
    ⟨"col-span-5 text-right", "45%"⟩
  obtain ⟨-, -, -, h3⟩ := h2 45 (by decide)
  have hupd := h3 (by decide) (by decide)
  exact ⟨hupd.trans (by decide), by decide⟩

/-!
Color-variable discovery of `parseTemplateHtml` (EditorClient.tsx lines
122–135): `styles.matchAll(/(--[a-zA-Z0-9_-]+)\s*:\s*(#[0-9a-fA-F]{3,8})\s*;/g)`
with a `seen` set keeping the first occurrence of each name.

`matchColorDecl` embeds one attempted match at a position.  The greedy runs
need no backtracking: name characters are disjoint from `\s` and `:`, and a
hex run longer than 8 can never complete the match because the character after
any shorter prefix is still a hex digit, not `\s` or `;` — so a declaration
matches exactly when the full hex run has length 3 to 8 and is followed by
`\s*;`.  The scanner (`scanColorDecls`) advances past a match, or by one
character after a failed attempt, exactly like `matchAll`. -/

def isHexDigit (c : Char) : Bool :=
  c.isDigit || ('a' ≤ c && c ≤ 'f') || ('A' ≤ c && c ≤ 'F')

/-- The name class `[a-zA-Z0-9_-]`. -/
def isNameChar (c : Char) : Bool := c.isAlphanum || c == '_' || c == '-'

def matchColorDecl (l : List Char) : Option ((String × String) × List Char) :=
  match l with
  | '-' :: '-' :: rest =>
      let nm := rest.takeWhile isNameChar
      if nm = [] then none
      else
        let r1 := (rest.drop nm.length).dropWhile (fun c => c.isWhitespace)
        if r1.head? = some ':' then
          let r2 := r1.tail.dropWhile (fun c => c.isWhitespace)
          if r2.head? = some '#' then
            let hs := r2.tail.takeWhile isHexDigit
            if 3 ≤ hs.length ∧ hs.length ≤ 8 then
              let r3 := (r2.tail.drop hs.length).dropWhile
                (fun c => c.isWhitespace)
              if r3.head? = some ';' then
                some ((String.mk ('-' :: '-' :: nm), String.mk ('#' :: hs)),
                  r3.tail)
              else none
            else none
          else none
        else none
  | _ => none

def scanColorDecls : Nat → List Char → List (String × String)
  | 0, _ => []
  | _ + 1, [] => []
  | fuel + 1, c :: rest =>
      match matchColorDecl (c :: rest) with
      | some (kv, rem) => kv :: scanColorDecls fuel rem
      | none => scanColorDecls fuel rest

/-- The `seen` set loop: first occurrence of each variable name wins. -/
def dedupFirst : List String → List (String × String) → List (String × String)
  | _, [] => []
  | seen, kv :: rest =>
      if kv.1 ∈ seen then dedupFirst seen rest
      else kv :: dedupFirst (kv.1 :: seen) rest

/-- `makeLabel` (lines 76–81): strip the leading `--`, turn `[-_]+` runs into
single spaces, uppercase every word character at a word boundary. -/
def stripVarDashes (l : List Char) : List Char :=
  match l with
  | '-' :: '-' :: rest => rest
  | _ => l

def dashUnderscoreAux : Bool → List Char → List Char
  | _, [] => []
  | inRun, c :: rest =>
      if c == '-' || c == '_' then
        if inRun then dashUnderscoreAux true rest
        else ' ' :: dashUnderscoreAux true rest
      else c :: dashUnderscoreAux false rest

def upperBoundaryAux : Option Char → List Char → List Char
  | _, [] => []
  | prev, c :: rest =>
      if (match prev with | none => true | some p => !(isWordChar p))
          && isWordChar c then
        c.toUpper :: upperBoundaryAux (some c) rest
      else c :: upperBoundaryAux (some c) rest

def makeLabel (varName : String) : String :=
  String.mk (upperBoundaryAux none
    (dashUnderscoreAux false (stripVarDashes varName.data)))

structure ColorMeta where
  varName : String
  label : String
  defaultValue : String
deriving DecidableEq, Repr

/-- The `colorMeta` list built by `parseTemplateHtml` from the style text. -/
def parseColorMeta (styles : String) : List ColorMeta :=
  (dedupFirst [] (scanColorDecls styles.data.length styles.data)).map
    (fun kv => ⟨kv.1, makeLabel kv.1, kv.2⟩)

theorem matchColorDecl_hex {l : List Char} {kv : String × String}
    {rem : List Char} (h : matchColorDecl l = some (kv, rem)) :
    ∃ hs : List Char, kv.2.data = '#' :: hs ∧ 3 ≤ hs.length ∧
      hs.length ≤ 8 ∧ hs.all isHexDigit = true := by
  match l with
  | [] => exact absurd h (by simp [matchColorDecl])
  | [c] =>
      rcases c with _
      rw [matchColorDecl.eq_def] at h
      split at h
      · rename_i heq
        exact absurd heq (by simp)
      · exact Option.noConfusion h
  | c1 :: c2 :: rest =>
      rw [matchColorDecl.eq_def] at h
      split at h
      · rename_i rest0 heq
        injection heq with h1 heq
        injection heq with h2 heq
        subst heq
        simp only at h
        split at h
        · exact Option.noConfusion h
        · split at h
          · split at h
            · split at h
              · rename_i hlen
                split at h
                · injection h with h
                  injection h with hkv hrem
                  subst hkv
                  refine ⟨_, rfl, hlen.1, hlen.2, ?_⟩
                  have : ∀ (p : Char → Bool) (m : List Char),
                      (m.takeWhile p).all p = true := by
                    intro p m
                    induction m with
                    | nil => rfl
                    | cons a tl ih =>
                        rw [List.takeWhile_cons]
                        split
                        · rw [List.all_cons, Bool.and_eq_true]
                          exact ⟨‹_›, ih⟩
                        · rfl
                  exact this _ _
                · exact Option.noConfusion h
              · exact Option.noConfusion h
            · exact Option.noConfusion h
          · exact Option.noConfusion h
      · exact Option.noConfusion h

theorem scanColorDecls_hex : ∀ (fuel : Nat) (l : List Char)
    (kv : String × String), kv ∈ scanColorDecls fuel l →
    ∃ hs : List Char, kv.2.data = '#' :: hs ∧ 3 ≤ hs.length ∧
      hs.length ≤ 8 ∧ hs.all isHexDigit = true := by
  intro fuel
  induction fuel with
  | zero =>
      intro l kv h
      simp [scanColorDecls] at h
  | succ f ih =>
      intro l kv h
      match l with
      | [] => simp [scanColorDecls] at h
      | c :: rest =>
          rw [scanColorDecls] at h
          cases hm : matchColorDecl (c :: rest) with
          | none =>
              rw [hm] at h
              exact ih rest kv h
          | some pr =>
              obtain ⟨kv0, rem⟩ := pr
              rw [hm] at h
              rcases List.mem_cons.mp h with rfl | hmem
              · exact matchColorDecl_hex hm
              · exact ih rem kv hmem

theorem dedupFirst_sublist : ∀ (seen : List String)
    (l : List (String × String)), List.Sublist (dedupFirst seen l) l := by
  intro seen l
  induction l generalizing seen with
  | nil => exact List.Sublist.refl _
  | cons kv rest ih =>
      rw [dedupFirst]
      split
      · exact List.Sublist.cons kv (ih seen)
      · exact List.Sublist.cons₂ kv (ih _)

theorem dedupFirst_nodup : ∀ (seen : List String)
    (l : List (String × String)),
    ((dedupFirst seen l).map Prod.fst).Nodup ∧
    ∀ k ∈ (dedupFirst seen l).map Prod.fst, k ∉ seen := by
  intro seen l
  induction l generalizing seen with
  | nil => exact ⟨List.nodup_nil, by simp [dedupFirst]⟩
  | cons kv rest ih =>
      rw [dedupFirst]
      split
      · exact ih seen
      · rename_i hns
        obtain ⟨ihn, ihs⟩ := ih (kv.1 :: seen)
        constructor
        · rw [List.map_cons, List.nodup_cons]
          exact ⟨fun hmem => (ihs kv.1 hmem) (List.mem_cons_self _ _), ihn⟩
        · intro k hk
          rw [List.map_cons, List.mem_cons] at hk
          rcases hk with rfl | hk
          · exact hns
          · intro hkseen
            exact (ihs k hk) (List.mem_cons_of_mem _ hkseen)

theorem dedupFirst_find? : ∀ (seen : List String)
    (l : List (String × String)) (k : String), k ∉ seen →
    (dedupFirst seen l).find? (fun kv => kv.1 == k)
      = l.find? (fun kv => kv.1 == k) := by
  intro seen l
  induction l generalizing seen with
  | nil => intro k _; rfl
  | cons kv rest ih =>
      intro k hk
      rw [dedupFirst]
      split
      · rename_i hseen
        have hne : (kv.1 == k) = false := by
          cases hbe : (kv.1 == k)
          · rfl
          · have heq : kv.1 = k := by simpa using hbe
            rw [heq] at hseen
            exact absurd hseen hk
        rw [List.find?_cons, hne]
        exact ih seen k hk
      · cases hbe : (kv.1 == k) with
        | true => simp only [List.find?_cons, hbe]
        | false =>
            simp only [List.find?_cons, hbe]
            refine ih (kv.1 :: seen) k ?_
            intro hmem
            rcases List.mem_cons.mp hmem with rfl | hmem
            · simp at hbe
            · exact hk hmem

/-- C7 counterexample: a five-hex-digit value `#12345` is collected by the
discovery regex `{3,8}`, contradicting the claim that only 3-, 4-, 6- or
8-digit hex literals are collected. -/
theorem color_discovery_counterexample :
    (parseColorMeta "--x: #12345;").map
        (fun m => (m.varName, m.defaultValue))
      = [("--x", "#12345")] ∧
    ("#12345" : String).data.tail.length = 5 := by
  constructor
  · decide
  · decide

/-- C7 (amended): color-variable discovery collects only custom-property
declarations whose value is a hex literal of 3 to 8 hex digits terminated by a
semicolon (ignoring named colors and functional values); the resulting list
has no duplicate names, is a subsequence of the raw declaration scan
(declaration order), and for every name it keeps exactly the first scanned
occurrence. -/
theorem color_discovery_properties (styles : String) :
    ((parseColorMeta styles).map ColorMeta.varName).Nodup ∧
    (∀ m ∈ parseColorMeta styles, ∃ hs : List Char,
      m.defaultValue.data = '#' :: hs ∧ 3 ≤ hs.length ∧ hs.length ≤ 8 ∧
      hs.all isHexDigit = true) ∧
    List.Sublist (dedupFirst [] (scanColorDecls styles.data.length styles.data))
      (scanColorDecls styles.data.length styles.data) ∧
    (∀ k : String,
      (dedupFirst [] (scanColorDecls styles.data.length styles.data)).find?
          (fun kv => kv.1 == k)
        = (scanColorDecls styles.data.length styles.data).find?
          (fun kv => kv.1 == k)) := by
  refine ⟨?_, ?_, dedupFirst_sublist [] _, fun k => dedupFirst_find? [] _ k (by simp)⟩
  · rw [parseColorMeta, List.map_map]
    have hcomp : ((fun m : ColorMeta => m.varName)
        ∘ (fun kv : String × String => (⟨kv.1, makeLabel kv.1, kv.2⟩ : ColorMeta)))
        = Prod.fst := rfl
    rw [hcomp]
    exact (dedupFirst_nodup [] _).1
  · intro m hm
    rw [parseColorMeta, List.mem_map] at hm
    obtain ⟨kv, hkv, rfl⟩ := hm
    have hscan : kv ∈ scanColorDecls styles.data.length styles.data :=
      (dedupFirst_sublist [] _).mem hkv
    exact scanColorDecls_hex _ _ kv hscan

def wStyles : String := "--a: #fff; --b: #000; --a: #111;"

/-- C7 witness: a style text with a duplicated name keeps the first
occurrence, in declaration order, with no duplicate names. -/
theorem color_discovery_properties_witness :
    ((parseColorMeta wStyles).map ColorMeta.varName).Nodup ∧
    parseColorMeta wStyles
      = [⟨"--a", "A", "#fff"⟩, ⟨"--b", "B", "#000"⟩] := by
  obtain ⟨h1, -, -, -⟩ := color_discovery_properties wStyles
  exact ⟨h1, by decide⟩

/-!
Toggle-style formatting dispatch, `onFormat` else-branch (EditorClient.tsx
lines 1488–1501).  When `multiSet.size > 1` and the command is one of the
native `execCommands`, the code moves the document selection onto the full
content of the FIRST element of the multi-selection set (`multiSet.values()
.next().value`, insertion order) if it is still attached to the body, and then
calls `document.execCommand` once.  There is no loop over the remaining
selected regions in this branch.  Regions are embedded by identifier; the
function below returns the identifier of the region or selection the single
`execCommand` call acts on. -/

def execCommands : List String :=
  ["justifyLeft", "justifyCenter", "justifyRight", "foreColor", "bold",
   "italic", "underline", "strikeThrough"]

structure FormatEnv where
  multiSet : List Nat
  bodyContains : Nat → Bool
  primaryTarget : Nat

def execCommandTarget (env : FormatEnv) (cmd : String) : Nat :=
  if 2 ≤ env.multiSet.length ∧ cmd ∈ execCommands then
    match env.multiSet.head? with
    | some first =>
        if env.bodyContains first then first else env.primaryTarget
    | none => env.primaryTarget
  else env.primaryTarget

/-- Whether region `r` receives the single native command call. -/
def receivesToggle (env : FormatEnv) (cmd : String) (r : Nat) : Bool :=
  execCommandTarget env cmd == r

def envC8 : FormatEnv := ⟨[1, 2], fun _ => true, 0⟩

/-- C8 counterexample: with two selected regions and the toggle command
"bold", region 2 is selected and attached yet does not receive the command —
only the first region of the set does — contradicting the claim that the
operation is replayed against every secondary selected region. -/
theorem toggle_multi_counterexample :
    2 ∈ envC8.multiSet ∧ envC8.bodyContains 2 = true ∧
    "bold" ∈ execCommands ∧
    execCommandTarget envC8 "bold" = 1 ∧
    receivesToggle envC8 "bold" 2 = false := by
  refine ⟨by decide, rfl, by decide, by decide, by decide⟩

/-- C8 (amended): for toggle-style commands with at least two selected
regions, the native command is executed exactly once, against the full content
of the first region of the multi-selection set (when attached); every other
selected region — and the original primary selection — does not receive it.
With fewer than two selected regions, or a non-toggle command, the native
command acts on the primary selection. -/
theorem toggle_exec_single_target (env : FormatEnv) (cmd : String) :
    (2 ≤ env.multiSet.length → cmd ∈ execCommands →
      ∀ first, env.multiSet.head? = some first →
        env.bodyContains first = true →
        execCommandTarget env cmd = first ∧
        ∀ r ∈ env.multiSet, r ≠ first → receivesToggle env cmd r = false) ∧
    ((env.multiSet.length < 2 ∨ cmd ∉ execCommands) →
      execCommandTarget env cmd = env.primaryTarget) := by
  constructor
  · intro h2 hcmd first hfirst hbody
    have htgt : execCommandTarget env cmd = first := by
      rw [execCommandTarget, if_pos ⟨h2, hcmd⟩, hfirst]
      simp [hbody]
    refine ⟨htgt, fun r _ hr => ?_⟩
    rw [receivesToggle, htgt]
    simp [Ne.symm hr]
  · intro hc
    rw [execCommandTarget, if_neg ?_]
    rintro ⟨ha, hb⟩
    rcases hc with hc | hc
    · omega
    · exact hc hb

/-- C8 witness: the amended dispatch applied at the counterexample
environment. -/
theorem toggle_exec_single_target_witness :
    execCommandTarget envC8 "bold" = 1 ∧
    receivesToggle envC8 "bold" 2 = false ∧
    execCommandTarget envC8 "fontSize" = 0 := by
  obtain ⟨hmulti, hother⟩ := toggle_exec_single_target envC8 "bold"
  obtain ⟨ht, hr⟩ := hmulti (by decide) (by decide) 1 (by decide) rfl
  obtain ⟨-, hother2⟩ := toggle_exec_single_target envC8 "fontSize"
  exact ⟨ht, hr 2 (by decide) (by decide), hother2 (by decide)⟩

/-!
Copy-to-clipboard export, `exportClipboard` (src/lib/export.ts lines 72–85)
with `captureToCanvas` (lines 17–32).

The async flow is embedded as an environment of outcomes: the html2canvas
capture either resolves with a canvas or rejects; the synchronous
`canvas.toBlob(...)` call either throws (`.error` — a SecurityError on a
tainted canvas is reachable because `captureToCanvas` passes
`allowTaint: true`, export.ts line 27) or invokes the callback with a blob
(`.ok (some b)`) or `null` (`.ok none`); `navigator.clipboard.write` resolves
or rejects.  In the source, `await captureToCanvas(...)` is NOT wrapped in
any try/catch inside `exportClipboard`, so a capture rejection propagates to
the caller (`onExport` has only `try { ... } finally`, no catch);
`canvas.toBlob` is called unguarded inside the Promise executor, so a
synchronous throw there rejects the returned promise as well; the callback
resolves `false` on a missing blob and wraps only the clipboard write in
try/catch. -/

structure ClipboardEnv where
  capture : Except String Nat
  toBlob : Nat → Except String (Option Nat)
  write : Nat → Except String Unit

def exportClipboard (env : ClipboardEnv) : Except String Bool :=
  match env.capture with
  | .error e => .error e
  | .ok canvas =>
      match env.toBlob canvas with
      | .error e => .error e
      | .ok none => .ok false
      | .ok (some blob) =>
          match env.write blob with
          | .ok _ => .ok true
          | .error _ => .ok false

def envCapFail : ClipboardEnv :=
  ⟨.error "capture failed", fun _ => .ok none, fun _ => .ok ()⟩

def envTaintClip : ClipboardEnv :=
  ⟨.ok 1, fun _ => .error "SecurityError", fun _ => .ok ()⟩

/-- C9 counterexample: when the capture step rejects, `exportClipboard`
rejects to its caller instead of returning `false`; and even after a
successful capture, a synchronous `canvas.toBlob` throw (SecurityError on a
tainted canvas) rejects as well — the claim that the operation returns a
boolean and never rejects is false on both paths. -/
theorem export_clipboard_counterexample :
    exportClipboard envCapFail = .error "capture failed" ∧
    exportClipboard envCapFail ≠ .ok false ∧
    exportClipboard envCapFail ≠ .ok true ∧
    exportClipboard envTaintClip = .error "SecurityError" ∧
    exportClipboard envTaintClip ≠ .ok false ∧
    exportClipboard envTaintClip ≠ .ok true := by
  have h0 : exportClipboard envCapFail = .error "capture failed" := rfl
  have h1 : exportClipboard envTaintClip = .error "SecurityError" := rfl
  refine ⟨h0, ?_, ?_, h1, ?_, ?_⟩ <;>
    first
      | · rw [h0]
          intro hcon
          exact Except.noConfusion hcon
      | · rw [h1]
          intro hcon
          exact Except.noConfusion hcon

/-- C9 (amended): `exportClipboard` resolves `false` when the blob callback
receives `null` or the clipboard write fails, and `true` when the write
succeeds; it rejects to its caller both when the capture step rejects and
when `canvas.toBlob` throws synchronously after a successful capture (for
example a SecurityError on a tainted canvas, reachable since the capture
allows tainting). -/
theorem export_clipboard_boolean (env : ClipboardEnv) :
    (∀ canvas, env.capture = .ok canvas →
      (env.toBlob canvas = .ok none → exportClipboard env = .ok false) ∧
      (∀ blob, env.toBlob canvas = .ok (some blob) →
        (∀ u, env.write blob = .ok u → exportClipboard env = .ok true) ∧
        (∀ e, env.write blob = .error e → exportClipboard env = .ok false)) ∧
      (∀ e, env.toBlob canvas = .error e → exportClipboard env = .error e)) ∧
    (∀ e, env.capture = .error e → exportClipboard env = .error e) := by
  constructor
  · intro canvas hcap
    refine ⟨?_, ?_, ?_⟩
    · intro hblob
      simp only [exportClipboard, hcap, hblob]
    · intro blob hblob
      constructor
      · intro u hw
        simp only [exportClipboard, hcap, hblob, hw]
      · intro e hw
        simp only [exportClipboard, hcap, hblob, hw]
    · intro e hblob
      simp only [exportClipboard, hcap, hblob]
  · intro e hcap
    simp only [exportClipboard, hcap]

def envGoodClip : ClipboardEnv :=
  ⟨.ok 1, fun _ => .ok (some 7), fun _ => .ok ()⟩
def envNoBlobClip : ClipboardEnv :=
  ⟨.ok 1, fun _ => .ok none, fun _ => .ok ()⟩

/-- C9 witness: a successful capture with a blob and a working clipboard
resolves `true`; a successful capture with a `null` blob resolves `false`;
a tainted canvas rejects after a successful capture. -/
theorem export_clipboard_boolean_witness :
    exportClipboard envGoodClip = .ok true ∧
    exportClipboard envNoBlobClip = .ok false ∧
    exportClipboard envTaintClip = .error "SecurityError" := by
  obtain ⟨hok, -⟩ := export_clipboard_boolean envGoodClip
  obtain ⟨hok2, -⟩ := export_clipboard_boolean envNoBlobClip
  obtain ⟨hok3, -⟩ := export_clipboard_boolean envTaintClip
  obtain ⟨-, hsome, -⟩ := hok 1 rfl
  obtain ⟨hwr, -⟩ := hsome 7 rfl
  obtain ⟨-, -, hthrow⟩ := hok3 1 rfl
  exact ⟨hwr () rfl, (hok2 1 rfl).1 rfl, hthrow "SecurityError" rfl⟩

end StatsTemplateCanvas
